import Mathlib

/-
Shallow embedding of src/blockchain.py (class Blockchain).

The two external cryptographic/serialization primitives are passed as
explicit function parameters rather than implemented:
  - sha : String -> String   models hashlib.sha256(...).hexdigest()
  - hB  : Block -> String    models Blockchain.hash, i.e.
                             sha256(json.dumps(block, sort_keys=True)).hexdigest()
Every theorem below is stated for arbitrary such functions (or for the
concrete stand-ins hB0 and sha0 used by counterexamples and witnesses at
points where the code never consults the hash).

Python exceptions are modelled explicitly: Option results (none = raised
IndexError / KeyError) and Except results for resolve_conflicts (error =
a requests exception or a KeyError escaping the method). Wall-clock time
(time.time()) is passed in as an explicit argument t. A block timestamp
is modelled as a Nat tick since no claim depends on its value.
-/

/-- Python values that can occupy the previous_hash field of a block dict:
None, a string, or an int (the constructor passes the int 100 for genesis). -/
inductive HashVal where
  | none
  | str (s : String)
  | int (n : Int)
deriving DecidableEq

/-- Python truthiness for the values of HashVal: None and the empty string
and the int 0 are falsy; this drives the expression
previous_hash or self.hash(self.chain[-1]) in new_block. -/
def truthy : HashVal → Bool
  | HashVal.none => false
  | HashVal.str s => !s.isEmpty
  | HashVal.int n => n != 0

/-- A transaction dict as built by Blockchain.new_transaction. -/
structure Transaction where
  sender : String
  recipient : String
  amount : Int
deriving DecidableEq

/-- A block dict as built by Blockchain.new_block. -/
structure Block where
  index : Int
  timestamp : Nat
  transactions : List Transaction
  proof : Int
  previous_hash : HashVal
deriving DecidableEq

/-- The mutable state of a Blockchain object: self.chain and
self.current_transactions. (self.nodes is not modelled as stored state;
resolve_conflicts instead receives the list of per-peer fetch outcomes in
set-iteration order.) -/
structure BState where
  chain : List Block
  current_transactions : List Transaction
deriving DecidableEq

/-- Models Blockchain.valid_proof: sha256 of the decimal-string concatenation of
the two proofs must have "0000" as its first four hex characters. -/
def valid_proof (sha : String → String) (last_proof proof : Int) : Bool :=
  (sha (toString last_proof ++ toString proof)).take 4 == "0000"

/-- The expression previous_hash or self.hash(self.chain[-1]) in new_block:
keep previous_hash if truthy, otherwise hash the last block of the chain.
Returns Option.none exactly when Python raises IndexError (falsy
previous_hash with an empty chain). -/
def resolvePrev (hB : Block → String) (chain : List Block) (previous_hash : HashVal) :
    Option HashVal :=
  if truthy previous_hash then some previous_hash
  else chain.getLast?.map (fun b => HashVal.str (hB b))

/-- Models Blockchain.new_block: build the block dict, clear
current_transactions, append the block to the chain and return it.
Option.none models the IndexError raised by self.chain[-1] when
previous_hash is falsy and the chain is empty. -/
def new_block (hB : Block → String) (s : BState) (t : Nat) (proof : Int)
    (previous_hash : HashVal) : Option (BState × Block) :=
  (resolvePrev hB s.chain previous_hash).map (fun ph =>
    let block : Block :=
      { index := (s.chain.length : Int) + 1
        timestamp := t
        transactions := s.current_transactions
        proof := proof
        previous_hash := ph }
    ({ chain := s.chain ++ [block], current_transactions := [] }, block))

/-- Models Blockchain.__init__: empty chain, empty transaction pool, then
self.new_block(1, 100), i.e. positionally proof := 1 and
previous_hash := 100 (a truthy int, so the some branch is always taken;
the fallback arm is unreachable). -/
def init (hB : Block → String) (t : Nat) : BState :=
  match new_block hB { chain := [], current_transactions := [] } t 1 (HashVal.int 100) with
  | some (s, _) => s
  | Option.none => { chain := [], current_transactions := [] }

/-- Models Blockchain.new_transaction: append the transaction dict to
current_transactions, then return self.last_block of the mutated object
plus 1. The Option.none return value models the IndexError raised by
self.chain[-1] on an empty chain (note the append has already happened). -/
def new_transaction (s : BState) (sender recipient : String) (amount : Int) :
    BState × Option Int :=
  let s' : BState :=
    { s with current_transactions :=
        s.current_transactions ++ [{ sender := sender, recipient := recipient, amount := amount }] }
  (s', s'.chain.getLast?.map (fun b => b.index + 1))

/-- The while-loop body of Blockchain.valid_chain: starting from
last_block, check each following block's previous_hash against the hash of
its predecessor and the proof pair against valid_proof, returning false at
the first failure. -/
def validChainGo (hB : Block → String) (sha : String → String) :
    Block → List Block → Bool
  | _, [] => true
  | last_block, block :: rest =>
    if block.previous_hash != HashVal.str (hB last_block) then false
    else if !(valid_proof sha last_block.proof block.proof) then false
    else validChainGo hB sha block rest

/-- Models Blockchain.valid_chain: reads chain[0] before the loop, so an empty
chain raises IndexError, modelled as Option.none. -/
def valid_chain (hB : Block → String) (sha : String → String) (chain : List Block) :
    Option Bool :=
  match chain with
  | [] => Option.none
  | b :: rest => some (validChainGo hB sha b rest)

/-- The payload of a peer's /chain response as read by resolve_conflicts:
the reported length field and the chain field. The reported length is an
arbitrary JSON integer, independent of the actual chain length. -/
structure ChainPayload where
  length : Int
  chain : List Block
deriving DecidableEq

/-- The outcome of requests.get for one peer: either the request raised
(connection error, timeout, ...) or a response arrived with a status code
and a payload (Option.none payload = response.json() lacks the expected
keys or is not JSON, so reading it raises). -/
inductive FetchResult where
  | netError
  | response (status : Int) (payload : Option ChainPayload)
deriving DecidableEq

/-- The for-loop of Blockchain.resolve_conflicts over the fetch outcomes,
carrying max_length and new_chain. Except.error models an exception
escaping the loop: a raised request, a malformed payload behind a 200
response, or the IndexError raised by valid_chain on an empty candidate
chain. Short-circuit of the Python conjunction is preserved: valid_chain
runs only when the reported length exceeds max_length. -/
def resolveLoop (hB : Block → String) (sha : String → String) :
    List FetchResult → Int → Option (List Block) → Except Unit (Option (List Block))
  | [], _, best => Except.ok best
  | FetchResult.netError :: _, _, _ => Except.error ()
  | FetchResult.response status payload :: rest, maxLen, best =>
    if status = 200 then
      match payload with
      | Option.none => Except.error ()
      | some p =>
        if maxLen < p.length then
          match valid_chain hB sha p.chain with
          | Option.none => Except.error ()
          | some true => resolveLoop hB sha rest p.length (some p.chain)
          | some false => resolveLoop hB sha rest maxLen best
        else resolveLoop hB sha rest maxLen best
    else resolveLoop hB sha rest maxLen best

/-- Models Blockchain.resolve_conflicts: run the loop starting from
max_length = len(self.chain) and new_chain = None; afterwards replace the
chain and return True only if new_chain is truthy (a non-empty list).
On an exception the method aborts with self.chain untouched, since the
only state mutation comes after the loop. -/
def resolve_conflicts (hB : Block → String) (sha : String → String) (s : BState)
    (results : List FetchResult) : Except Unit Bool × BState :=
  match resolveLoop hB sha results (s.chain.length : Int) Option.none with
  | Except.error () => (Except.error (), s)
  | Except.ok Option.none => (Except.ok false, s)
  | Except.ok (some nc) =>
    if nc.isEmpty then (Except.ok false, s)
    else (Except.ok true, { s with chain := nc })

/-- The while-loop of Blockchain.proof_of_work, made total with explicit
fuel: try proof = start, start+1, ... The Python loop is this function
with unlimited fuel; the lemmas below show any sufficient fuel returns the
least valid proof, which is what proof_of_work denotes. -/
def powLoop (sha : String → String) (last_proof : Int) : Nat → Nat → Option Nat
  | 0, _ => Option.none
  | fuel + 1, p =>
    if valid_proof sha last_proof (p : Int) then some p
    else powLoop sha last_proof fuel (p + 1)

/-- Models Blockchain.proof_of_work on an input for which the search terminates
(some valid proof exists): run the loop with enough fuel to reach the
first solution. -/
def proof_of_work (sha : String → String) (last_proof : Int)
    (h : ∃ p : Nat, valid_proof sha last_proof (p : Int) = true) : Nat :=
  (powLoop sha last_proof (Nat.find h + 1) 0).getD 0

/-- The payloads that resolve_conflicts actually reads: those of responses
with status code 200 whose body parsed, in peer-iteration order. -/
def offers (results : List FetchResult) : List ChainPayload :=
  results.filterMap (fun r =>
    match r with
    | FetchResult.netError => Option.none
    | FetchResult.response st payload => if st = 200 then payload else Option.none)

/-- A fetch outcome that does not make resolve_conflicts raise and whose
payload, when read, reports its chain's true length: the request returned,
and a 200 response carries a well-formed payload with an honest length
field. -/
def goodResult : FetchResult → Prop
  | FetchResult.netError => False
  | FetchResult.response st payload =>
    st = 200 → ∃ p, payload = some p ∧ p.length = (p.chain.length : Int)

/-- The per-link condition of the chain invariant: the later block records
the digest of the earlier one and the proof pair satisfies valid_proof. -/
def chainLink (hB : Block → String) (sha : String → String) (a b : Block) : Prop :=
  b.previous_hash = HashVal.str (hB a) ∧ valid_proof sha a.proof b.proof = true

/-- The chain invariant in the indexed form of the spec: for every i with
i+1 a valid position, chain[i+1].previous_hash = digest(chain[i]) and
valid_proof(chain[i].proof, chain[i+1].proof). -/
def chainInv (hB : Block → String) (sha : String → String) (c : List Block) : Prop :=
  ∀ i, (h : i + 1 < c.length) →
    chainLink hB sha (c.get ⟨i, Nat.lt_of_succ_lt h⟩) (c.get ⟨i + 1, h⟩)

/-- States reachable through the ledger's operations with new_block
invoked the way the mining endpoint invokes it: the proof solves the
puzzle against the last block's proof, and previous_hash is either omitted
(None) or the digest of the last block. -/
inductive Reachable (hB : Block → String) (sha : String → String) : BState → Prop where
  | init_state : ∀ t, Reachable hB sha (init hB t)
  | tx : ∀ s sender recipient amount, Reachable hB sha s →
      Reachable hB sha (new_transaction s sender recipient amount).1
  | mined : ∀ s lb t p ph s' b, Reachable hB sha s →
      s.chain.getLast? = some lb →
      valid_proof sha lb.proof p = true →
      (ph = HashVal.none ∨ ph = HashVal.str (hB lb)) →
      new_block hB s t p ph = some (s', b) →
      Reachable hB sha s'
  | resolved : ∀ s results, Reachable hB sha s →
      Reachable hB sha (resolve_conflicts hB sha s results).2

/-- Concrete stand-in for Blockchain.hash used by counterexamples and
witnesses; every counterexample below only exercises code paths that never
consult the block hash, or compares values whose constructors already
differ, so the choice is immaterial. -/
def hB0 : Block → String := fun _ => "hB"

/-- Concrete stand-in for the sha256 hex digest used by counterexamples
and witnesses; it makes every proof pair valid, which only strengthens the
counterexamples (they never rely on a proof being rejected). -/
def sha0 : String → String := fun _ => "0000"

/-- The genesis block created by the constructor at tick t = 0. -/
def g0 : Block :=
  { index := 1, timestamp := 0, transactions := [], proof := 1,
    previous_hash := HashVal.int 100 }

/-- A single block with index field 5, used by counterexamples as the sole
element of a peer chain: a one-element chain passes valid_chain without
any hash or proof ever being checked. -/
def b5 : Block :=
  { index := 5, timestamp := 0, transactions := [], proof := 0,
    previous_hash := HashVal.none }

/-- Fold a list of transactions through new_transaction, keeping states. -/
def queueAll (s : BState) (txs : List Transaction) : BState :=
  txs.foldl (fun st tx => (new_transaction st tx.sender tx.recipient tx.amount).1) s

/-! Helper lemmas -/

/-- Characterization of a successful new_block call. -/
theorem new_block_spec (hB : Block → String) (s : BState) (t : Nat) (p : Int)
    (ph : HashVal) (s' : BState) (b : Block)
    (h : new_block hB s t p ph = some (s', b)) :
    s' = { chain := s.chain ++ [b], current_transactions := [] } ∧
    b.transactions = s.current_transactions ∧ b.proof = p ∧
    b.index = (s.chain.length : Int) + 1 ∧
    resolvePrev hB s.chain ph = some b.previous_hash := by
  cases hp : resolvePrev hB s.chain ph with
  | none => simp [new_block, hp] at h
  | some ph' =>
    simp only [new_block, hp, Option.map_some', Option.some.injEq, Prod.mk.injEq] at h
    obtain ⟨hs, hb⟩ := h
    subst hb
    subst hs
    exact ⟨rfl, rfl, rfl, rfl, rfl⟩

/-- new_block succeeds whenever the chain is non-empty. -/
theorem new_block_isSome (hB : Block → String) (s : BState) (t : Nat) (p : Int)
    (ph : HashVal) (hne : s.chain ≠ []) :
    (new_block hB s t p ph).isSome = true := by
  unfold new_block resolvePrev
  cases ht : truthy ph with
  | true => simp [ht]
  | false =>
    cases hl : s.chain.getLast? with
    | none => exact absurd (List.getLast?_eq_none_iff.mp hl) hne
    | some lb => simp [ht, hl]

/-- Queueing transactions leaves the chain untouched and appends the
transactions, in order, to the pending pool. -/
theorem queueAll_spec (txs : List Transaction) : ∀ s : BState,
    (queueAll s txs).chain = s.chain ∧
    (queueAll s txs).current_transactions = s.current_transactions ++ txs := by
  induction txs with
  | nil => intro s; simp [queueAll]
  | cons tx rest ih =>
    intro s
    have hstep : queueAll s (tx :: rest) =
        queueAll ((new_transaction s tx.sender tx.recipient tx.amount).1) rest := rfl
    rw [hstep]
    obtain ⟨h1, h2⟩ := ih (new_transaction s tx.sender tx.recipient tx.amount).1
    refine ⟨h1.trans rfl, h2.trans ?_⟩
    simp [new_transaction]

/-- The valid_chain loop accepts exactly the chains whose successive pairs
satisfy chainLink. -/
theorem validChainGo_iff (hB : Block → String) (sha : String → String) :
    ∀ (rest : List Block) (b : Block),
      validChainGo hB sha b rest = true ↔
      List.Chain' (chainLink hB sha) (b :: rest) := by
  intro rest
  induction rest with
  | nil => intro b; simp [validChainGo]
  | cons c cs ih =>
    intro b
    rw [List.chain'_cons]
    constructor
    · intro h
      unfold validChainGo at h
      split at h
      · exact absurd h (by simp)
      next hne =>
        split at h
        · exact absurd h (by simp)
        next hvp =>
          refine ⟨⟨?_, ?_⟩, (ih c).1 h⟩
          · simpa [bne_iff_ne] using hne
          · simpa using hvp
    · rintro ⟨⟨hprev, hvp⟩, hch⟩
      unfold validChainGo
      rw [if_neg, if_neg]
      · exact (ih c).2 hch
      · simp [hvp]
      · simp [hprev]

/-- A chain accepted by valid_chain is non-empty and satisfies chainLink
on every adjacent pair. -/
theorem valid_chain_true (hB : Block → String) (sha : String → String)
    (c : List Block) (h : valid_chain hB sha c = some true) :
    c ≠ [] ∧ List.Chain' (chainLink hB sha) c := by
  cases c with
  | nil => simp [valid_chain] at h
  | cons b rest =>
    refine ⟨by simp, ?_⟩
    have : validChainGo hB sha b rest = true := by
      simpa [valid_chain] using h
    exact (validChainGo_iff hB sha rest b).1 this

/-- A non-empty chain never makes valid_chain raise. -/
theorem valid_chain_isSome (hB : Block → String) (sha : String → String)
    (c : List Block) (hne : c ≠ []) : ∃ v, valid_chain hB sha c = some v := by
  cases c with
  | nil => exact absurd rfl hne
  | cons b rest => exact ⟨_, rfl⟩

/-- Adjacent-pair validity gives the indexed form of the invariant. -/
theorem chainInv_of_chain' (hB : Block → String) (sha : String → String)
    (c : List Block) (h : List.Chain' (chainLink hB sha) c) :
    chainInv hB sha c := by
  intro i hi
  exact List.chain'_iff_get.mp h i (by omega)

/-- The previous_hash value a mined block records: whether the caller
passes None or the digest of the last block, the field ends up holding the
digest of the last block. -/
theorem resolvePrev_mined (hB : Block → String) (chain : List Block) (lb : Block)
    (ph : HashVal) (hlast : chain.getLast? = some lb)
    (hph : ph = HashVal.none ∨ ph = HashVal.str (hB lb)) :
    resolvePrev hB chain ph = some (HashVal.str (hB lb)) := by
  rcases hph with h | h
  · subst h; simp [resolvePrev, truthy, hlast]
  · subst h
    by_cases ht : truthy (HashVal.str (hB lb)) = true
    · simp [resolvePrev, ht]
    · simp only [resolvePrev, ht, if_neg, Bool.not_eq_true] at *
      simp [resolvePrev, ht, hlast]

/-- A raised request aborts the loop at once. -/
theorem resolveLoop_cons_net (hB : Block → String) (sha : String → String)
    (rest : List FetchResult) (maxLen : Int) (best : Option (List Block)) :
    resolveLoop hB sha (FetchResult.netError :: rest) maxLen best =
    Except.error () := rfl

/-- A malformed payload behind a 200 response aborts the loop. -/
theorem resolveLoop_cons_malformed (hB : Block → String) (sha : String → String)
    (rest : List FetchResult) (maxLen : Int) (best : Option (List Block)) :
    resolveLoop hB sha (FetchResult.response 200 Option.none :: rest) maxLen best =
    Except.error () := by
  simp [resolveLoop]

/-- A non-200 response is skipped: the loop continues on the remaining
peers with accumulators untouched. -/
theorem resolveLoop_cons_skip (hB : Block → String) (sha : String → String)
    (st : Int) (payload : Option ChainPayload) (rest : List FetchResult)
    (maxLen : Int) (best : Option (List Block)) (hst : st ≠ 200) :
    resolveLoop hB sha (FetchResult.response st payload :: rest) maxLen best =
    resolveLoop hB sha rest maxLen best := by
  simp [resolveLoop, hst]

/-- A 200 response whose reported length does not beat max_length is
passed over without consulting valid_chain. -/
theorem resolveLoop_cons_low (hB : Block → String) (sha : String → String)
    (p : ChainPayload) (rest : List FetchResult) (maxLen : Int)
    (best : Option (List Block)) (hlen : ¬ maxLen < p.length) :
    resolveLoop hB sha (FetchResult.response 200 (some p) :: rest) maxLen best =
    resolveLoop hB sha rest maxLen best := by
  simp [resolveLoop, hlen]

/-- A long-enough candidate whose chain fails validation is passed over. -/
theorem resolveLoop_cons_invalid (hB : Block → String) (sha : String → String)
    (p : ChainPayload) (rest : List FetchResult) (maxLen : Int)
    (best : Option (List Block)) (hlen : maxLen < p.length)
    (hv : valid_chain hB sha p.chain = some false) :
    resolveLoop hB sha (FetchResult.response 200 (some p) :: rest) maxLen best =
    resolveLoop hB sha rest maxLen best := by
  simp [resolveLoop, hlen, hv]

/-- A long-enough valid candidate becomes the new best chain and its
reported length the new max_length. -/
theorem resolveLoop_cons_adopt (hB : Block → String) (sha : String → String)
    (p : ChainPayload) (rest : List FetchResult) (maxLen : Int)
    (best : Option (List Block)) (hlen : maxLen < p.length)
    (hv : valid_chain hB sha p.chain = some true) :
    resolveLoop hB sha (FetchResult.response 200 (some p) :: rest) maxLen best =
    resolveLoop hB sha rest p.length (some p.chain) := by
  simp [resolveLoop, hlen, hv]

/-- A long-enough candidate with an empty chain makes valid_chain raise
and the loop abort. -/
theorem resolveLoop_cons_raise (hB : Block → String) (sha : String → String)
    (p : ChainPayload) (rest : List FetchResult) (maxLen : Int)
    (best : Option (List Block)) (hlen : maxLen < p.length)
    (hv : valid_chain hB sha p.chain = Option.none) :
    resolveLoop hB sha (FetchResult.response 200 (some p) :: rest) maxLen best =
    Except.error () := by
  simp [resolveLoop, hlen, hv]

/-- Any chain the loop hands back other than its incoming accumulator was
accepted by valid_chain. -/
theorem resolveLoop_ok_some (hB : Block → String) (sha : String → String) :
    ∀ (results : List FetchResult) (maxLen : Int) (best : Option (List Block))
      (nc : List Block),
      resolveLoop hB sha results maxLen best = Except.ok (some nc) →
      best = some nc ∨ valid_chain hB sha nc = some true := by
  intro results
  induction results with
  | nil =>
    intro maxLen best nc h
    left
    simpa [resolveLoop] using h
  | cons r rest ih =>
    intro maxLen best nc h
    cases r with
    | netError => simp [resolveLoop_cons_net] at h
    | response st payload =>
      by_cases hst : st = 200
      · subst hst
        cases payload with
        | none => simp [resolveLoop_cons_malformed] at h
        | some p =>
          by_cases hlen : maxLen < p.length
          · cases hv : valid_chain hB sha p.chain with
            | none => rw [resolveLoop_cons_raise hB sha p rest maxLen best hlen hv] at h; simp at h
            | some bv =>
              cases bv with
              | true =>
                rw [resolveLoop_cons_adopt hB sha p rest maxLen best hlen hv] at h
                rcases ih p.length (some p.chain) nc h with heq | hval
                · right
                  have hpc : p.chain = nc := by injection heq
                  rw [← hpc]
                  exact hv
                · right; exact hval
              | false =>
                rw [resolveLoop_cons_invalid hB sha p rest maxLen best hlen hv] at h
                exact ih maxLen best nc h
          · rw [resolveLoop_cons_low hB sha p rest maxLen best hlen] at h
            exact ih maxLen best nc h
      · rw [resolveLoop_cons_skip hB sha st payload rest maxLen best hst] at h
        exact ih maxLen best nc h

/-- Offers of a well-formed 200 response prepend its payload. -/
theorem offers_cons_200 (p : ChainPayload) (rest : List FetchResult) :
    offers (FetchResult.response 200 (some p) :: rest) = p :: offers rest := by
  simp [offers]

/-- A non-200 response contributes no offer. -/
theorem offers_cons_skip (st : Int) (payload : Option ChainPayload)
    (rest : List FetchResult) (hst : st ≠ 200) :
    offers (FetchResult.response st payload :: rest) = offers rest := by
  simp [offers, hst]

/-- Master specification of the resolve_conflicts loop over fetch outcomes
that raise nothing and report honest lengths, starting from any
max_length of at least 1: either no offered chain both beats max_length
and validates, and the accumulator is returned unchanged, or the loop
returns a longest such offer. -/
theorem resolveLoop_spec (hB : Block → String) (sha : String → String) :
    ∀ (results : List FetchResult) (maxLen : Int) (best : Option (List Block)),
      (∀ r ∈ results, goodResult r) → 1 ≤ maxLen →
      (resolveLoop hB sha results maxLen best = Except.ok best ∧
        ∀ p ∈ offers results, valid_chain hB sha p.chain = some true →
          p.length ≤ maxLen) ∨
      (∃ p, p ∈ offers results ∧
        resolveLoop hB sha results maxLen best = Except.ok (some p.chain) ∧
        valid_chain hB sha p.chain = some true ∧
        maxLen < p.length ∧ p.length = (p.chain.length : Int) ∧
        ∀ q ∈ offers results, valid_chain hB sha q.chain = some true →
          q.length ≤ p.length) := by
  intro results
  induction results with
  | nil =>
    intro maxLen best hgood hmax
    left
    refine ⟨rfl, ?_⟩
    intro p hp
    simp [offers] at hp
  | cons r rest ih =>
    intro maxLen best hgood hmax
    have hgr : goodResult r := hgood r (List.mem_cons_self r rest)
    have hgrest : ∀ x ∈ rest, goodResult x := fun x hx => hgood x (List.mem_cons_of_mem r hx)
    cases r with
    | netError => simp [goodResult] at hgr
    | response st payload =>
      by_cases hst : st = 200
      · subst hst
        obtain ⟨p, hpl, hhon⟩ := hgr rfl
        subst hpl
        have hoff := offers_cons_200 p rest
        by_cases hlen : maxLen < p.length
        · have hne : p.chain ≠ [] := by
            intro h0
            rw [h0] at hhon
            simp at hhon
            omega
          obtain ⟨v, hv⟩ := valid_chain_isSome hB sha p.chain hne
          cases v with
          | true =>
            have hstep := resolveLoop_cons_adopt hB sha p rest maxLen best hlen hv
            have hmax' : (1:Int) ≤ p.length := le_trans hmax (le_of_lt hlen)
            rcases ih p.length (some p.chain) hgrest hmax' with
              ⟨hloop, hbound⟩ | ⟨q, hq, hloop, hqv, hqlen, hqhon, hqbound⟩
            · right
              refine ⟨p, ?_, ?_, hv, hlen, hhon, ?_⟩
              · rw [hoff]; exact List.mem_cons_self p _
              · rw [hstep]; exact hloop
              · intro q hq hqv
                rw [hoff] at hq
                rcases List.mem_cons.mp hq with h | h
                · subst h; exact le_refl _
                · exact hbound q h hqv
            · right
              refine ⟨q, ?_, ?_, hqv, lt_trans hlen hqlen, hqhon, ?_⟩
              · rw [hoff]; exact List.mem_cons_of_mem p hq
              · rw [hstep]; exact hloop
              · intro q' hq' hq'v
                rw [hoff] at hq'
                rcases List.mem_cons.mp hq' with h | h
                · subst h; exact le_of_lt hqlen
                · exact hqbound q' h hq'v
          | false =>
            have hstep := resolveLoop_cons_invalid hB sha p rest maxLen best hlen hv
            rcases ih maxLen best hgrest hmax with
              ⟨hloop, hbound⟩ | ⟨q, hq, hloop, hqv, hqlen, hqhon, hqbound⟩
            · left
              refine ⟨hstep.trans hloop, ?_⟩
              intro q hq hqv
              rw [hoff] at hq
              rcases List.mem_cons.mp hq with h | h
              · subst h; rw [hqv] at hv; simp at hv
              · exact hbound q h hqv
            · right
              refine ⟨q, ?_, hstep.trans hloop, hqv, hqlen, hqhon, ?_⟩
              · rw [hoff]; exact List.mem_cons_of_mem p hq
              · intro q' hq' hq'v
                rw [hoff] at hq'
                rcases List.mem_cons.mp hq' with h | h
                · subst h; rw [hq'v] at hv; simp at hv
                · exact hqbound q' h hq'v
        · have hstep := resolveLoop_cons_low hB sha p rest maxLen best hlen
          rcases ih maxLen best hgrest hmax with
            ⟨hloop, hbound⟩ | ⟨q, hq, hloop, hqv, hqlen, hqhon, hqbound⟩
          · left
            refine ⟨hstep.trans hloop, ?_⟩
            intro q hq hqv
            rw [hoff] at hq
            rcases List.mem_cons.mp hq with h | h
            · subst h; omega
            · exact hbound q h hqv
          · right
            refine ⟨q, ?_, hstep.trans hloop, hqv, hqlen, hqhon, ?_⟩
            · rw [hoff]; exact List.mem_cons_of_mem p hq
            · intro q' hq' hq'v
              rw [hoff] at hq'
              rcases List.mem_cons.mp hq' with h | h
              · subst h; omega
              · exact hqbound q' h hq'v
      · have hstep := resolveLoop_cons_skip hB sha st payload rest maxLen best hst
        have hoff := offers_cons_skip st payload rest hst
        rcases ih maxLen best hgrest hmax with
          ⟨hloop, hbound⟩ | ⟨q, hq, hloop, hqv, hqlen, hqhon, hqbound⟩
        · left
          refine ⟨hstep.trans hloop, ?_⟩
          rw [hoff]
          exact hbound
        · right
          refine ⟨q, ?_, hstep.trans hloop, hqv, hqlen, hqhon, ?_⟩
          · rw [hoff]; exact hq
          · rw [hoff]; exact hqbound

/-- Every reachable state (under the mining discipline built into
Reachable) has a non-empty chain whose adjacent pairs satisfy chainLink. -/
theorem reachable_inv (hB : Block → String) (sha : String → String) (s : BState)
    (h : Reachable hB sha s) :
    s.chain ≠ [] ∧ List.Chain' (chainLink hB sha) s.chain := by
  induction h with
  | init_state t =>
    have hchain : (init hB t).chain =
        [{ index := 1, timestamp := t, transactions := [], proof := 1,
           previous_hash := HashVal.int 100 }] := rfl
    rw [hchain]
    exact ⟨by simp, List.chain'_singleton _⟩
  | tx s sender recipient amount hr ih => exact ih
  | mined s lb t p ph s' b hr hlast hvp hph hnb ih =>
    obtain ⟨hs', htx, hpf, hidx, hres⟩ := new_block_spec hB s t p ph s' b hnb
    have hprev : b.previous_hash = HashVal.str (hB lb) := by
      have hm := resolvePrev_mined hB s.chain lb ph hlast hph
      rw [hres] at hm
      injection hm with h'
    subst hs'
    refine ⟨by simp, ?_⟩
    refine List.chain'_append.mpr ⟨ih.2, List.chain'_singleton _, ?_⟩
    intro x hx y hy
    rw [hlast] at hx
    simp at hx hy
    subst hx
    subst hy
    refine ⟨hprev, ?_⟩
    rw [hpf]
    exact hvp
  | resolved s results hr ih =>
    cases hloop : resolveLoop hB sha results (s.chain.length : Int) Option.none with
    | error e =>
      cases e
      have hres : (resolve_conflicts hB sha s results).2 = s := by
        simp [resolve_conflicts, hloop]
      rw [hres]
      exact ih
    | ok ob =>
      cases ob with
      | none =>
        have hres : (resolve_conflicts hB sha s results).2 = s := by
          simp [resolve_conflicts, hloop]
        rw [hres]
        exact ih
      | some nc =>
        rcases resolveLoop_ok_some hB sha results _ _ nc hloop with hbad | hval
        · simp at hbad
        · obtain ⟨hne, hch⟩ := valid_chain_true hB sha nc hval
          have hnE : nc.isEmpty = false := by
            cases nc with
            | nil => exact absurd rfl hne
            | cons x xs => rfl
          have hres : (resolve_conflicts hB sha s results).2 = { s with chain := nc } := by
            simp [resolve_conflicts, hloop, hnE]
          rw [hres]
          exact ⟨hne, hch⟩

/-- Claim C2 (amended): every chain state reachable through construction,
new_transaction, new_block invoked the way mining invokes it (its proof
solving the puzzle against the last block's proof and its previous_hash
either None or the digest of the last block), and resolve_conflicts,
satisfies chain[i].previous_hash = digest(chain[i-1]) and
valid_proof(chain[i-1].proof, chain[i].proof) for all i > 0. The
unrestricted new_block of the claim breaks the invariant, see the
counterexample. -/
theorem C2_invariant (hB : Block → String) (sha : String → String) (s : BState)
    (h : Reachable hB sha s) : chainInv hB sha s.chain :=
  chainInv_of_chain' hB sha s.chain (reachable_inv hB sha s h).2

/-- Claim C2 witness: the invariant holds at the freshly constructed state. -/
theorem C2_invariant_witness : chainInv hB0 sha0 (init hB0 0).chain :=
  C2_invariant hB0 sha0 (init hB0 0) (Reachable.init_state 0)

/-- Claim C2 counterexample: from the constructed state, the state reached by
the ledger operation new_block(proof := 0, previous_hash := 5) violates
the invariant at i = 1: the appended block stores the int 5 where the
invariant requires the digest string of the genesis block, whatever the
hash function returns. -/
theorem C2_counterexample :
    new_block hB0 (init hB0 0) 0 0 (HashVal.int 5) =
      some ({ chain := [g0, { index := 2, timestamp := 0, transactions := [],
                              proof := 0, previous_hash := HashVal.int 5 }],
              current_transactions := [] },
            { index := 2, timestamp := 0, transactions := [], proof := 0,
              previous_hash := HashVal.int 5 }) ∧
    ¬ chainInv hB0 sha0
        [g0, { index := 2, timestamp := 0, transactions := [], proof := 0,
               previous_hash := HashVal.int 5 }] := by
  constructor
  · rfl
  · intro h
    have h0 := (h 0 (by decide)).1
    exact absurd h0 (by decide)

/-- Under good fetch outcomes, every payload the loop reads reports its
chain's true length. -/
theorem offers_honest (results : List FetchResult)
    (hgood : ∀ r ∈ results, goodResult r) (p : ChainPayload)
    (hp : p ∈ offers results) : p.length = (p.chain.length : Int) := by
  obtain ⟨r, hr, hfr⟩ := List.mem_filterMap.mp hp
  cases r with
  | netError => simp at hfr
  | response st payload =>
    by_cases hst : st = 200
    · subst hst
      obtain ⟨q, hq, hqh⟩ := hgood _ hr rfl
      subst hq
      simp at hfr
      subst hfr
      exact hqh
    · simp [hst] at hfr

/-- Claim C1 (amended): provided every fetch returns a response and every
success response carries a well-formed payload whose reported length is
its chain's true length, resolve_conflicts never raises; it replaces the
local chain (returning true) only with a fetched peer chain that is
strictly longer than the local chain and passes valid_chain; and when it
returns false the whole state is unchanged and no fetched valid chain was
strictly longer. The claim without the honest-length proviso fails: the
code compares the peer's reported length field, not the fetched chain,
see the counterexample. -/
theorem C1_resolve (hB : Block → String) (sha : String → String) (s : BState)
    (results : List FetchResult) (hne : s.chain ≠ [])
    (hgood : ∀ r ∈ results, goodResult r) :
    ((resolve_conflicts hB sha s results).1 = Except.ok true →
      (resolve_conflicts hB sha s results).2.current_transactions =
        s.current_transactions ∧
      ∃ p, p ∈ offers results ∧
        (resolve_conflicts hB sha s results).2.chain = p.chain ∧
        valid_chain hB sha p.chain = some true ∧
        s.chain.length < p.chain.length) ∧
    ((resolve_conflicts hB sha s results).1 = Except.ok false →
      resolve_conflicts hB sha s results = (Except.ok false, s) ∧
      ∀ p ∈ offers results, valid_chain hB sha p.chain = some true →
        p.chain.length ≤ s.chain.length) ∧
    ((resolve_conflicts hB sha s results).1 = Except.ok true ∨
      (resolve_conflicts hB sha s results).1 = Except.ok false) := by
  have hpos : 0 < s.chain.length := List.length_pos.mpr hne
  have hmax : (1 : Int) ≤ (s.chain.length : Int) := by omega
  rcases resolveLoop_spec hB sha results (s.chain.length : Int) Option.none hgood hmax with
    ⟨hloop, hbound⟩ | ⟨p, hp, hloop, hpv, hplen, hphon, hpbound⟩
  · have hres : resolve_conflicts hB sha s results = (Except.ok false, s) := by
      simp [resolve_conflicts, hloop]
    rw [hres]
    refine ⟨?_, ?_, Or.inr rfl⟩
    · intro hh
      simp at hh
    · intro _
      refine ⟨rfl, ?_⟩
      intro q hq hqv
      have h1 := hbound q hq hqv
      have h2 := offers_honest results hgood q hq
      omega
  · have hlt : s.chain.length < p.chain.length := by omega
    have hnE : p.chain.isEmpty = false := by
      cases hc : p.chain with
      | nil => rw [hc] at hlt; simp at hlt
      | cons x xs => rfl
    have hres : resolve_conflicts hB sha s results =
        (Except.ok true, { s with chain := p.chain }) := by
      simp [resolve_conflicts, hloop, hnE]
    rw [hres]
    refine ⟨?_, ?_, Or.inl rfl⟩
    · intro _
      exact ⟨rfl, p, hp, rfl, hpv, hlt⟩
    · intro hh
      simp at hh

/-- Claim C1 witness: a single peer answering 404 qualifies nothing; the
local chain survives and the call reports false. -/
theorem C1_resolve_witness :
    (init hB0 0).chain ≠ [] ∧
    (∀ r ∈ ([FetchResult.response 404 Option.none] : List FetchResult), goodResult r) ∧
    (((resolve_conflicts hB0 sha0 (init hB0 0)
        [FetchResult.response 404 Option.none]).1 = Except.ok true →
      (resolve_conflicts hB0 sha0 (init hB0 0)
        [FetchResult.response 404 Option.none]).2.current_transactions =
        (init hB0 0).current_transactions ∧
      ∃ p, p ∈ offers [FetchResult.response 404 Option.none] ∧
        (resolve_conflicts hB0 sha0 (init hB0 0)
          [FetchResult.response 404 Option.none]).2.chain = p.chain ∧
        valid_chain hB0 sha0 p.chain = some true ∧
        (init hB0 0).chain.length < p.chain.length) ∧
    ((resolve_conflicts hB0 sha0 (init hB0 0)
        [FetchResult.response 404 Option.none]).1 = Except.ok false →
      resolve_conflicts hB0 sha0 (init hB0 0) [FetchResult.response 404 Option.none] =
        (Except.ok false, init hB0 0) ∧
      ∀ p ∈ offers [FetchResult.response 404 Option.none],
        valid_chain hB0 sha0 p.chain = some true →
        p.chain.length ≤ (init hB0 0).chain.length) ∧
    ((resolve_conflicts hB0 sha0 (init hB0 0)
        [FetchResult.response 404 Option.none]).1 = Except.ok true ∨
      (resolve_conflicts hB0 sha0 (init hB0 0)
        [FetchResult.response 404 Option.none]).1 = Except.ok false)) := by
  have h1 : (init hB0 0).chain ≠ [] := by decide
  have h2 : ∀ r ∈ ([FetchResult.response 404 Option.none] : List FetchResult), goodResult r := by
    intro r hr
    simp at hr
    subst hr
    intro h200
    exact absurd h200 (by decide)
  exact ⟨h1, h2, C1_resolve hB0 sha0 (init hB0 0) [FetchResult.response 404 Option.none] h1 h2⟩

/-- Claim C1 counterexample: the local chain is the one-block genesis chain; a
peer reports length 2 but sends a one-block chain. The code trusts the
reported length, replaces the chain and returns true, although the
adopted chain is not strictly longer than the local one. -/
theorem C1_counterexample :
    resolve_conflicts hB0 sha0 (init hB0 0)
      [FetchResult.response 200 (some { length := 2, chain := [b5] })] =
      (Except.ok true, { chain := [b5], current_transactions := [] }) ∧
    ¬ (init hB0 0).chain.length < ([b5] : List Block).length := by
  exact ⟨rfl, by decide⟩

/-- Claim C9 (amended): under fetch outcomes that raise nothing and report
honest lengths, running resolve_conflicts twice in a row over the same
outcomes yields false on the second call. With a dishonestly reported
length the second call can return true again, see the counterexample. -/
theorem C9_idempotent (hB : Block → String) (sha : String → String) (s : BState)
    (results : List FetchResult) (hne : s.chain ≠ [])
    (hgood : ∀ r ∈ results, goodResult r) :
    (resolve_conflicts hB sha (resolve_conflicts hB sha s results).2 results).1 =
      Except.ok false := by
  have hpos : 0 < s.chain.length := List.length_pos.mpr hne
  have hmax : (1 : Int) ≤ (s.chain.length : Int) := by omega
  rcases resolveLoop_spec hB sha results (s.chain.length : Int) Option.none hgood hmax with
    ⟨hloop, hbound⟩ | ⟨p, hp, hloop, hpv, hplen, hphon, hpbound⟩
  · have hres1 : resolve_conflicts hB sha s results = (Except.ok false, s) := by
      simp [resolve_conflicts, hloop]
    have h2 : (resolve_conflicts hB sha s results).2 = s := by rw [hres1]
    rw [h2, hres1]
  · have hlt : s.chain.length < p.chain.length := by omega
    have hnE : p.chain.isEmpty = false := by
      cases hc : p.chain with
      | nil => rw [hc] at hlt; simp at hlt
      | cons x xs => rfl
    have hres1 : resolve_conflicts hB sha s results =
        (Except.ok true, { s with chain := p.chain }) := by
      simp [resolve_conflicts, hloop, hnE]
    have h2 : (resolve_conflicts hB sha s results).2 = { s with chain := p.chain } := by
      rw [hres1]
    rw [h2]
    have hmax2 : (1 : Int) ≤ (p.chain.length : Int) := by omega
    rcases resolveLoop_spec hB sha results (p.chain.length : Int) Option.none hgood hmax2 with
      ⟨hloop2, hbound2⟩ | ⟨q, hq, hloop2, hqv, hqlen, hqhon, hqbound⟩
    · have hres2 : resolve_conflicts hB sha { s with chain := p.chain } results =
          (Except.ok false, { s with chain := p.chain }) := by
        simp [resolve_conflicts, hloop2]
      rw [hres2]
    · exfalso
      have hb := hpbound q hq hqv
      omega

/-- Claim C9 witness: one peer answering 500; both calls report false and
the second one in particular. -/
theorem C9_idempotent_witness :
    (init hB0 0).chain ≠ [] ∧
    (∀ r ∈ ([FetchResult.response 500 Option.none] : List FetchResult), goodResult r) ∧
    (resolve_conflicts hB0 sha0
      (resolve_conflicts hB0 sha0 (init hB0 0) [FetchResult.response 500 Option.none]).2
      [FetchResult.response 500 Option.none]).1 = Except.ok false := by
  have h1 : (init hB0 0).chain ≠ [] := by decide
  have h2 : ∀ r ∈ ([FetchResult.response 500 Option.none] : List FetchResult),
      goodResult r := by
    intro r hr
    simp at hr
    subst hr
    intro h200
    exact absurd h200 (by decide)
  exact ⟨h1, h2, C9_idempotent hB0 sha0 (init hB0 0) [FetchResult.response 500 Option.none] h1 h2⟩

/-- Claim C9 counterexample: a peer that reports length 100 for a one-block
chain is adopted on the first call, and since the reported length still
beats the (actual) local length, it is adopted again: the second call
returns true, not false. -/
theorem C9_counterexample :
    resolve_conflicts hB0 sha0 (init hB0 0)
      [FetchResult.response 200 (some { length := 100, chain := [b5] })] =
      (Except.ok true, { chain := [b5], current_transactions := [] }) ∧
    (resolve_conflicts hB0 sha0 { chain := [b5], current_transactions := [] }
      [FetchResult.response 200 (some { length := 100, chain := [b5] })]).1 =
      Except.ok true :=
  ⟨rfl, rfl⟩

/-- Claim C5 (amended): a non-success response makes resolve_conflicts skip
that peer and examine the remaining peers exactly as if the peer were
absent; but a raised request (network error) or a malformed payload
behind a 200 response aborts the whole resolution with an exception,
leaving the state unchanged and the remaining peers unexamined. -/
theorem C5_partial_failure (hB : Block → String) (sha : String → String) (s : BState)
    (st : Int) (payload : Option ChainPayload) (rest : List FetchResult)
    (hst : st ≠ 200) :
    resolve_conflicts hB sha s (FetchResult.response st payload :: rest) =
      resolve_conflicts hB sha s rest ∧
    resolve_conflicts hB sha s (FetchResult.netError :: rest) = (Except.error (), s) ∧
    resolve_conflicts hB sha s (FetchResult.response 200 Option.none :: rest) =
      (Except.error (), s) := by
  refine ⟨?_, ?_, ?_⟩
  · unfold resolve_conflicts
    rw [resolveLoop_cons_skip hB sha st payload rest _ _ hst]
  · unfold resolve_conflicts
    rw [resolveLoop_cons_net]
  · unfold resolve_conflicts
    rw [resolveLoop_cons_malformed]

/-- Claim C5 witness: concrete instance with status 404 and one remaining
peer. -/
theorem C5_partial_failure_witness :
    (404 : Int) ≠ 200 ∧
    (resolve_conflicts hB0 sha0 (init hB0 0)
      (FetchResult.response 404 Option.none :: [FetchResult.response 500 Option.none]) =
      resolve_conflicts hB0 sha0 (init hB0 0) [FetchResult.response 500 Option.none] ∧
    resolve_conflicts hB0 sha0 (init hB0 0)
      (FetchResult.netError :: [FetchResult.response 500 Option.none]) =
      (Except.error (), init hB0 0) ∧
    resolve_conflicts hB0 sha0 (init hB0 0)
      (FetchResult.response 200 Option.none :: [FetchResult.response 500 Option.none]) =
      (Except.error (), init hB0 0)) :=
  ⟨by decide, C5_partial_failure hB0 sha0 (init hB0 0) 404 Option.none
    [FetchResult.response 500 Option.none] (by decide)⟩

/-- Claim C5 counterexample: the first peer's fetch raises; resolution aborts
with the chain unchanged even though the second peer, alone, would have
been adopted — so the failure is not recovered by skipping and the
remaining peers are not examined. -/
theorem C5_counterexample :
    resolve_conflicts hB0 sha0 (init hB0 0)
      [FetchResult.netError, FetchResult.response 200 (some { length := 2, chain := [b5] })] =
      (Except.error (), init hB0 0) ∧
    (resolve_conflicts hB0 sha0 (init hB0 0)
      [FetchResult.response 200 (some { length := 2, chain := [b5] })]).1 =
      Except.ok true :=
  ⟨rfl, rfl⟩

/-- Claim C7 (amended): valid_chain accepts every one-block chain, but on the
empty chain it does not return true: reading chain[0] raises IndexError
(modelled as Option.none). -/
theorem C7_short_chains (hB : Block → String) (sha : String → String) (b : Block) :
    valid_chain hB sha [b] = some true ∧
    valid_chain hB sha ([] : List Block) = Option.none :=
  ⟨rfl, rfl⟩

/-- Claim C7 counterexample: on the zero-block chain valid_chain raises
instead of returning true. -/
theorem C7_counterexample :
    valid_chain hB0 sha0 ([] : List Block) = Option.none ∧
    valid_chain hB0 sha0 ([] : List Block) ≠ some true :=
  ⟨rfl, by decide⟩

/-- Claim C8 (amended): new_transaction returns last_block.index + 1; when the
last block's index equals the chain length — as in every chain built by
the constructor and new_block — this is the chain length plus 1. A chain
adopted from a peer by resolve_conflicts can carry any index values, so
the claim over every non-empty-chain state fails, see the
counterexample. -/
theorem C8_next_index (s : BState) (sender recipient : String) (amount : Int)
    (lb : Block) (hlast : s.chain.getLast? = some lb)
    (hidx : lb.index = (s.chain.length : Int)) :
    (new_transaction s sender recipient amount).2 = some ((s.chain.length : Int) + 1) := by
  simp [new_transaction, hlast, hidx]

/-- Claim C8 witness: on the freshly constructed ledger a queued transaction
reports next block index 2 = chain length + 1. -/
theorem C8_next_index_witness :
    (init hB0 0).chain.getLast? = some g0 ∧
    g0.index = ((init hB0 0).chain.length : Int) ∧
    (new_transaction (init hB0 0) "A" "B" 5).2 = some (((init hB0 0).chain.length : Int) + 1) :=
  ⟨by decide, by decide, C8_next_index (init hB0 0) "A" "B" 5 g0 (by decide) (by decide)⟩

/-- Claim C8 counterexample: after resolve_conflicts adopts a peer's one-block
chain whose block carries index 5 (reachable because valid_chain checks
no index and the reported length is trusted), new_transaction returns 6,
not chain length + 1 = 2. -/
theorem C8_counterexample :
    resolve_conflicts hB0 sha0 (init hB0 0)
      [FetchResult.response 200 (some { length := 2, chain := [b5] })] =
      (Except.ok true, { chain := [b5], current_transactions := [] }) ∧
    (new_transaction { chain := [b5], current_transactions := [] } "a" "b" 1).2 = some 6 ∧
    ¬ ((6 : Int) =
        ((({ chain := [b5], current_transactions := [] } : BState).chain.length : Int) + 1)) :=
  ⟨rfl, rfl, by decide⟩

/-- Claim C4 (confirmed): starting from any state just produced by new_block
(whose pool new_block has cleared), queueing any list of transactions and
mining embeds exactly those transactions in insertion order, clears the
pool again, and an immediately following new_block yields a block with no
transactions. -/
theorem C4_transactions (hB : Block → String) (s0 : BState) (t1 : Nat) (p1 : Int)
    (ph1 : HashVal) (s1 : BState) (b1 : Block)
    (h1 : new_block hB s0 t1 p1 ph1 = some (s1, b1))
    (txs : List Transaction) (t2 t3 : Nat) (p2 p3 : Int) (ph2 ph3 : HashVal) :
    ∃ s2 b2 s3 b3,
      new_block hB (queueAll s1 txs) t2 p2 ph2 = some (s2, b2) ∧
      b2.transactions = txs ∧
      s2.current_transactions = [] ∧
      new_block hB s2 t3 p3 ph3 = some (s3, b3) ∧
      b3.transactions = [] := by
  obtain ⟨hs1, _, _, _, _⟩ := new_block_spec hB s0 t1 p1 ph1 s1 b1 h1
  obtain ⟨hqc, hqt⟩ := queueAll_spec txs s1
  have hs1tx : s1.current_transactions = [] := by rw [hs1]
  have hqt' : (queueAll s1 txs).current_transactions = txs := by
    rw [hqt, hs1tx]
    simp
  have hqne : (queueAll s1 txs).chain ≠ [] := by
    rw [hqc, hs1]
    simp
  have h2 := new_block_isSome hB (queueAll s1 txs) t2 p2 ph2 hqne
  obtain ⟨⟨s2, b2⟩, h2'⟩ := Option.isSome_iff_exists.mp h2
  obtain ⟨hs2, hb2t, _, _, _⟩ := new_block_spec hB _ t2 p2 ph2 s2 b2 h2'
  have hs2tx : s2.current_transactions = [] := by rw [hs2]
  have hs2ne : s2.chain ≠ [] := by
    rw [hs2]
    simp
  have h3 := new_block_isSome hB s2 t3 p3 ph3 hs2ne
  obtain ⟨⟨s3, b3⟩, h3'⟩ := Option.isSome_iff_exists.mp h3
  obtain ⟨_, hb3t, _, _, _⟩ := new_block_spec hB s2 t3 p3 ph3 s3 b3 h3'
  refine ⟨s2, b2, s3, b3, h2', ?_, hs2tx, h3', ?_⟩
  · rw [hb2t, hqt']
  · rw [hb3t, hs2tx]

/-- Claim C4 witness: mine once from the constructed ledger, queue one
transaction, and the properties hold concretely. -/
theorem C4_transactions_witness :
    new_block hB0 (init hB0 0) 0 0 HashVal.none =
      some ({ chain := [g0, { index := 2, timestamp := 0, transactions := [],
                              proof := 0, previous_hash := HashVal.str (hB0 g0) }],
              current_transactions := [] },
            { index := 2, timestamp := 0, transactions := [], proof := 0,
              previous_hash := HashVal.str (hB0 g0) }) ∧
    (∃ s2 b2 s3 b3,
      new_block hB0
        (queueAll { chain := [g0, { index := 2, timestamp := 0, transactions := [],
                                    proof := 0, previous_hash := HashVal.str (hB0 g0) }],
                    current_transactions := [] }
          [{ sender := "A", recipient := "B", amount := 5 }]) 0 0 HashVal.none =
        some (s2, b2) ∧
      b2.transactions = [{ sender := "A", recipient := "B", amount := 5 }] ∧
      s2.current_transactions = [] ∧
      new_block hB0 s2 0 0 HashVal.none = some (s3, b3) ∧
      b3.transactions = []) :=
  ⟨rfl,
   C4_transactions hB0 (init hB0 0) 0 0 HashVal.none
     { chain := [g0, { index := 2, timestamp := 0, transactions := [],
                       proof := 0, previous_hash := HashVal.str (hB0 g0) }],
       current_transactions := [] }
     { index := 2, timestamp := 0, transactions := [], proof := 0,
       previous_hash := HashVal.str (hB0 g0) }
     rfl [{ sender := "A", recipient := "B", amount := 5 }] 0 0 0 0 HashVal.none HashVal.none⟩

/-- Soundness of the proof-of-work search loop: whatever it returns is a
valid proof and nothing between the start value and it is. -/
theorem powLoop_sound (sha : String → String) (last_proof : Int) :
    ∀ (fuel start p : Nat), powLoop sha last_proof fuel start = some p →
      valid_proof sha last_proof (p : Int) = true ∧ start ≤ p ∧
      ∀ q, start ≤ q → q < p → valid_proof sha last_proof (q : Int) = false := by
  intro fuel
  induction fuel with
  | zero =>
    intro start p h
    simp [powLoop] at h
  | succ n ih =>
    intro start p h
    simp only [powLoop] at h
    split at h
    next hvalid =>
      have hsp : start = p := by injection h
      subst hsp
      exact ⟨hvalid, le_refl _, fun q hq1 hq2 => absurd hq1 (by omega)⟩
    next hvalid =>
      obtain ⟨hv, hle, hmin⟩ := ih (start + 1) p h
      refine ⟨hv, by omega, ?_⟩
      intro q hq1 hq2
      by_cases hq : q = start
      · subst hq
        exact Bool.eq_false_iff.mpr hvalid
      · exact hmin q (by omega) hq2

/-- Completeness of the proof-of-work search loop: with a solution within
reach of the fuel, the loop returns something. -/
theorem powLoop_complete (sha : String → String) (last_proof : Int) :
    ∀ (fuel start : Nat),
      (∃ k, k < fuel ∧ valid_proof sha last_proof ((start + k : Nat) : Int) = true) →
      ∃ p, powLoop sha last_proof fuel start = some p := by
  intro fuel
  induction fuel with
  | zero =>
    rintro start ⟨k, hk, _⟩
    omega
  | succ n ih =>
    rintro start ⟨k, hk, hv⟩
    simp only [powLoop]
    split
    · exact ⟨start, rfl⟩
    next hnv =>
      apply ih (start + 1)
      cases k with
      | zero =>
        rw [Nat.add_zero] at hv
        exact absurd hv hnv
      | succ m =>
        refine ⟨m, by omega, ?_⟩
        rw [show start + 1 + m = start + (m + 1) from by omega]
        exact hv

/-- Claim C3 (confirmed): whenever some valid proof exists for last_proof, the
proof_of_work search returns a valid proof and nothing smaller is valid,
i.e. it returns the least non-negative solution of the puzzle. -/
theorem C3_proof_of_work (sha : String → String) (last_proof : Int)
    (h : ∃ p : Nat, valid_proof sha last_proof (p : Int) = true) :
    valid_proof sha last_proof ((proof_of_work sha last_proof h : Nat) : Int) = true ∧
    ∀ q : Nat, q < proof_of_work sha last_proof h →
      valid_proof sha last_proof (q : Int) = false := by
  have hfind : valid_proof sha last_proof ((Nat.find h : Nat) : Int) = true :=
    Nat.find_spec h
  obtain ⟨p, hp⟩ := powLoop_complete sha last_proof (Nat.find h + 1) 0
    ⟨Nat.find h, by omega, by simpa using hfind⟩
  obtain ⟨hv, _, hmin⟩ := powLoop_sound sha last_proof (Nat.find h + 1) 0 p hp
  have hpw : proof_of_work sha last_proof h = p := by
    unfold proof_of_work
    rw [hp]
    rfl
  rw [hpw]
  exact ⟨hv, fun q hq => hmin q (Nat.zero_le q) hq⟩

/-- A valid proof exists for the stand-in hash, so the search terminates
there. -/
theorem powEx : ∃ p : Nat, valid_proof sha0 100 (p : Int) = true :=
  ⟨0, by decide⟩

/-- Claim C3 witness: the search for last_proof 100 under the stand-in hash
returns a valid minimal proof. -/
theorem C3_proof_of_work_witness :
    valid_proof sha0 100 ((proof_of_work sha0 100 powEx : Nat) : Int) = true ∧
    ∀ q : Nat, q < proof_of_work sha0 100 powEx →
      valid_proof sha0 100 (q : Int) = false :=
  C3_proof_of_work sha0 100 powEx

/-- Claim C10 (confirmed): valid_proof reads its two arguments only through the
concatenation of their decimal strings, for every hash function — in
particular distinct proof pairs with equal concatenations share one
puzzle outcome. -/
theorem C10_concat (sha : String → String) (a b c d : Int)
    (h : toString a ++ toString b = toString c ++ toString d) :
    valid_proof sha a b = valid_proof sha c d := by
  unfold valid_proof
  rw [h]

/-- Claim C10 witness: the pairs (12, 3) and (1, 23) both concatenate to the
string 123 and get the same verdict. -/
theorem C10_concat_witness :
    (toString (12 : Int) ++ toString (3 : Int) =
      toString (1 : Int) ++ toString (23 : Int)) ∧
    valid_proof sha0 12 3 = valid_proof sha0 1 23 :=
  ⟨by decide, C10_concat sha0 12 3 1 23 (by decide)⟩

/-- Claim C6 (code bug evidence): the constructor's positional call
new_block(1, 100) makes the genesis block carry proof 1 and
previous_hash 100 (a Python int), not proof 100 and previous_hash None as
documented: the two arguments are swapped relative to new_block's
signature (proof, previous_hash). -/
theorem C6_genesis (hB : Block → String) (t : Nat) :
    (init hB t).chain =
      [{ index := 1, timestamp := t, transactions := [], proof := 1,
         previous_hash := HashVal.int 100 }] ∧
    (1 : Int) ≠ 100 ∧ HashVal.int 100 ≠ HashVal.none :=
  ⟨rfl, by decide, by decide⟩
